import Mathlib

/- Verification of scripts/generate_extraction_artifacts.py.

Strings are modelled at the character level as `List Char`, so every string
operation of the script (strip, startswith, endswith, replace, lower,
substring test) is an executable Lean function on character lists.  File and
process I/O (reading the two input files, writing the two artifacts, the
timestamp envelope of the schema document) are outside the model; the
functions below take the already-read lines and CSV rows as arguments, which
is exactly the data the script's pure core consumes. -/

namespace LeatherCad

/-- Python strings, modelled as their list of characters. -/
abbrev Str := List Char

/-- Whitespace characters stripped by Python's str.strip with no argument
(ASCII subset, which covers every string the script handles). -/
def isPySpace (c : Char) : Bool :=
  c = ' ' || c = '\t' || c = '\n' || c = '\r' || c = '\x0b' || c = '\x0c'

/-- Left part of Python str.strip: drop leading whitespace. -/
def lstrip (s : Str) : Str := s.dropWhile isPySpace

/-- Right part of Python str.strip: drop trailing whitespace. -/
def rstrip (s : Str) : Str := (s.reverse.dropWhile isPySpace).reverse

/-- Python str.strip (both ends). -/
def pyStrip (s : Str) : Str := rstrip (lstrip s)

/-- Python s.startswith(p): `startsL p s` tests whether `s` begins with `p`. -/
def startsL : Str → Str → Bool
  | [], _ => true
  | _ :: _, [] => false
  | a :: as, b :: bs => if a = b then startsL as bs else false

/-- Python s.endswith(suf). -/
def endsL (suf s : Str) : Bool := startsL suf.reverse s.reverse

/-- Python substring test `needle in hay`. -/
def hasSub (needle : Str) : Str → Bool
  | [] => needle.isEmpty
  | c :: rest => startsL needle (c :: rest) || hasSub needle rest

/-- Python s.startswith((p1, p2, ...)): true when any listed start matches. -/
def startsAny (ps : List Str) (s : Str) : Bool := ps.any fun p => startsL p s

/-- The execution-handler suffix literal "Execute". -/
def executeSuf : Str := "Execute".toList

/-- The misspelled substring "LinePallet" corrected by the canonicalizer. -/
def palletSub : Str := "LinePallet".toList

/-- The corrected spelling "LinePalette" substituted by the canonicalizer. -/
def paletteSub : Str := "LinePalette".toList

/-- Scanning loop of value.replace("LinePallet", "LinePalette"): at an
occurrence of the misspelling, emit the corrected spelling and skip the rest
of the matched occurrence (the skip counter holds how many matched characters
remain to be consumed), so occurrences are rewritten left to right without
overlap, exactly as Python's str.replace does. -/
def fixGo : Nat → Str → Str
  | _, [] => []
  | 0, c :: rest =>
      if startsL palletSub (c :: rest) then paletteSub ++ fixGo (palletSub.length - 1) rest
      else c :: fixGo 0 rest
  | k + 1, _ :: rest => fixGo k rest

/-- Model of value.replace("LinePallet", "LinePalette"). -/
def fixPallet (s : Str) : Str := fixGo 0 s

/-- Embedding of canonicalize_action: strip surrounding whitespace, remove a
trailing "Execute", then correct the "LinePallet" misspelling. -/
def canonicalize_action (action : Str) : Str :=
  let value := pyStrip action
  let value := if endsL executeSuf value then value.take (value.length - executeSuf.length) else value
  fixPallet value

/-- Starts tested by the Transforms rule of classify_cluster. -/
def transformsPre : List Str :=
  ["actAlign".toList, "actRotate".toList, "actScale".toList, "actSpecify".toList,
   "actSetAs".toList, "actMoveOrCopy".toList]

/-- Starts tested by the LineTypePalette rule of classify_cluster. -/
def linePalettePre : List Str := ["actLinePalette".toList, "actLinePallet".toList]

/-- Starts tested by the GeometryEdit rule of classify_cluster. -/
def geometryPre : List Str :=
  ["actCenterLine".toList, "actConvert".toList, "actReversePath".toList, "actSplitIntoN".toList,
   "actDrawBoundary".toList, "actDrawGoldenSpiral".toList, "actDeleteDuplicates".toList,
   "actEditShapeSize".toList, "actEditLineAngle".toList, "actLineSymmetry".toList,
   "actDesignHelper_".toList]

/-- Starts tested by the SelectionOrdering rule of classify_cluster. -/
def selectionPre : List Str :=
  ["actSelect".toList, "actDeselect".toList, "actDeleteSelected".toList, "actCreateGroup".toList,
   "actUngroup".toList, "actOrder".toList]

/-- Starts tested by the ProjectLifecycle rule of classify_cluster. -/
def projectPre : List Str :=
  ["actNewProject".toList, "actLoadProject".toList, "actSaveProject".toList, "actClose".toList,
   "actOpenDemoProject".toList, "actOpenOptions".toList, "actClearAll".toList]

/-- Starts tested by the ViewportDisplay rule of classify_cluster. -/
def viewportPre : List Str :=
  ["actShowHideGrid".toList, "actShowHideScale".toList, "actShowHideDimensionLines".toList,
   "actShowHidePrintAreas".toList, "actSetGridBackground".toList, "actResetView".toList]

/-- Starts tested by the HelpLinks rule of classify_cluster. -/
def helpPre : List Str := ["actShow".toList, "actView".toList, "actVisit".toList]

/-- Starts tested by the SecretBonus rule of classify_cluster. -/
def secretPre : List Str := ["actSecret".toList]

/-- Starts tested by the LayerAdvanced rule of classify_cluster. -/
def layerPre : List Str := ["actLayer".toList, "actIgnoreLayer".toList]

/-- Embedding of classify_cluster: the chain of startswith tests of the script,
in source order, defaulting to "Other". -/
def classify_cluster (action : Str) : Str :=
  if startsAny transformsPre action then "Transforms".toList
  else if startsL "actLinePalette".toList action || startsL "actLinePallet".toList action then
    "LineTypePalette".toList
  else if startsAny geometryPre action then "GeometryEdit".toList
  else if startsAny selectionPre action then "SelectionOrdering".toList
  else if startsAny projectPre action then "ProjectLifecycle".toList
  else if startsAny viewportPre action then "ViewportDisplay".toList
  else if startsAny helpPre action then "HelpLinks".toList
  else if startsL "actSecret".toList action then "SecretBonus".toList
  else if startsAny layerPre action then "LayerAdvanced".toList
  else "Other".toList

/-- Embedding of infer_control_kind: the chain of startswith tests of the
script, in source order, defaulting to "other". -/
def infer_control_kind (control_id : Str) : Str :=
  if startsL "chk".toList control_id then "checkbox".toList
  else if startsL "cmb".toList control_id then "select".toList
  else if startsL "rb".toList control_id then "radio".toList
  else if startsL "nb".toList control_id then "number".toList
  else if startsL "ed".toList control_id then "text".toList
  else if startsL "btn".toList control_id then "button".toList
  else if startsL "lbl".toList control_id then "label".toList
  else if startsL "gb".toList control_id then "group".toList
  else if startsL "tab".toList control_id then "tab".toList
  else if startsL "tv".toList control_id then "tree".toList
  else if startsAny ["sw".toList, "switch".toList] control_id then "switch".toList
  else "other".toList

/-- Python str.lower on the ASCII identifiers the script classifies. -/
def pyLower (s : Str) : Str := s.map Char.toLower

/-- Embedding of infer_control_domain: lower-case the identifier, then test
keyword groups for substring presence in source order, defaulting to
"general". -/
def infer_control_domain (control_id : Str) : Str :=
  let lower := pyLower control_id
  if ["stitch".toList, "prick".toList, "thread".toList].any (fun t => hasSub t lower) then
    "stitching".toList
  else if ["svg".toList, "dxf".toList].any (fun t => hasSub t lower) then "export".toList
  else if hasSub "print".toList lower || hasSub "tile".toList lower || hasSub "dpi".toList lower then
    "print".toList
  else if ["palette".toList, "line".toList, "color".toList].any (fun t => hasSub t lower) then
    "line-types".toList
  else if ["auto".toList, "pitch".toList, "zoom".toList, "save".toList, "option".toList].any
      (fun t => hasSub t lower) then "options".toList
  else if ["repo".toList, "catalog".toList, "template".toList].any (fun t => hasSub t lower) then
    "repository".toList
  else "general".toList

/-- A parsed form section: one unit produced by parse_form_sections. -/
structure FormSection where
  resource_file : Str
  form_name : Str
  actions : List Str
  controls : List Str
deriving DecidableEq

/-- The parser's sub-section mode: Python's `mode` variable, which is None,
"actions" or "controls". -/
inductive PMode where
  | off
  | acts
  | ctrls
deriving DecidableEq

/-- Marker literal "Actions (" switching the parser into action mode. -/
def actionsMarker : Str := "Actions (".toList

/-- Marker literal "Controls (" switching the parser into control mode. -/
def controlsMarker : Str := "Controls (".toList

/-- Python's `not line.strip()` blank-line test. -/
def isBlankLine (l : Str) : Bool := (pyStrip l).isEmpty

/-- Handling of one non-header line inside an active section: the marker
lines switch the mode, a blank line is skipped, and any other line is
appended (trimmed) to the list selected by the current mode. -/
def stepBody (line : Str) (c : FormSection) (mode : PMode) : FormSection × PMode :=
  if startsL actionsMarker line then (c, PMode.acts)
  else if startsL controlsMarker line then (c, PMode.ctrls)
  else if isBlankLine line then (c, mode)
  else
    match mode with
    | PMode.acts => ({ c with actions := c.actions ++ [pyStrip line] }, mode)
    | PMode.ctrls => ({ c with controls := c.controls ++ [pyStrip line] }, mode)
    | PMode.off => (c, mode)

/-- One step per line of parse_form_sections, carried over the remaining
lines with the accumulated sections, the in-progress section and the mode.
The header test `hdr` models re.match(HEADER_PATTERN, line): it returns the
two capture groups (resource file, form name) when the line is a header. -/
def parseGo (hdr : Str → Option (Str × Str)) :
    List Str → List FormSection → Option FormSection → PMode → List FormSection
  | [], forms, curr, _ => forms ++ curr.toList
  | line :: rest, forms, curr, mode =>
    match hdr line with
    | some g =>
        parseGo hdr rest (forms ++ curr.toList)
          (some { resource_file := pyStrip g.1, form_name := pyStrip g.2,
                  actions := [], controls := [] })
          PMode.off
    | none =>
      match curr with
      | none => parseGo hdr rest forms none mode
      | some c => parseGo hdr rest forms (some (stepBody line c mode).1) (stepBody line c mode).2

/-- Embedding of parse_form_sections over the file's lines (newline already
removed per line, as the script's rstrip of the newline does). -/
def parse_form_sections (hdr : Str → Option (Str × Str)) (lines : List Str) : List FormSection :=
  parseGo hdr lines [] none PMode.off

/-- One CSV row of the action-ticket map, with the columns the script reads;
a missing column is the empty string, as with row.get(key, ""). -/
structure CsvRow where
  action : Str
  ticket_id : Str
  feature_group : Str
  phase : Str
deriving DecidableEq

/-- Python dict keyed by strings: an insertion-ordered association list. -/
abbrev Dict (α : Type) := List (Str × α)

/-- Python d.get(k): the value stored under key k, if present. -/
def dget {α : Type} : Dict α → Str → Option α
  | [], _ => none
  | e :: rest, k => if e.1 = k then some e.2 else dget rest k

/-- Python d[k] = v: overwrite in place when the key exists, else append. -/
def dset {α : Type} : Dict α → Str → α → Dict α
  | [], k, v => [(k, v)]
  | e :: rest, k, v => if e.1 = k then (k, v) :: rest else e :: dset rest k v

/-- Loop body of load_action_ticket_map over the CSV rows. -/
def loadGo : Dict CsvRow → List CsvRow → Dict CsvRow
  | m, [] => m
  | m, r :: rest =>
      let a := pyStrip r.action
      loadGo (if a.isEmpty then m else dset m a r) rest

/-- Embedding of load_action_ticket_map: build the mapping keyed by the
trimmed action column, skipping blank keys, later rows overwriting. -/
def load_action_ticket_map (rows : List CsvRow) : Dict CsvRow := loadGo [] rows

/-- The two allow-listed primary-form variants of build_action_matrix. -/
def allowedForms : List Str := ["TfrmLeat".toList, "TfrmLeat_Macintosh".toList]

/-- The action-identifier marker "act" required of canonical actions. -/
def actTag : Str := "act".toList

/-- Accumulated aliases and declaring forms of one canonical action (the
per-key value of the script's by_action dictionary, with Python's two sets
modelled as duplicate-free lists in insertion order). -/
structure AliasAcc where
  aliases : List Str
  forms : List Str
deriving DecidableEq

/-- Python set.add on the duplicate-free list model. -/
def sadd (l : List Str) (x : Str) : List Str := if x ∈ l then l else l ++ [x]

/-- Inner loop body of build_action_matrix for one raw action of a form. -/
def addAction (fname : Str) (m : Dict AliasAcc) (raw : Str) : Dict AliasAcc :=
  let canonical := canonicalize_action raw
  if startsL actTag canonical then
    let item := (dget m canonical).getD { aliases := [], forms := [] }
    dset m canonical { aliases := sadd item.aliases raw, forms := sadd item.forms fname }
  else m

/-- Outer loop body of build_action_matrix for one form: skip forms outside
the allow-list, else fold the form's raw actions into the accumulator. -/
def addForm (m : Dict AliasAcc) (f : FormSection) : Dict AliasAcc :=
  if f.form_name ∈ allowedForms then f.actions.foldl (addAction f.form_name) m else m

/-- The accumulation phase of build_action_matrix over all parsed forms. -/
def accumulateForms (forms : List FormSection) : Dict AliasAcc := forms.foldl addForm []

/-- Lexicographic at-most comparison of strings by character code, the order
underlying Python's sorted() on strings. -/
def lexLe : Str → Str → Bool
  | [], _ => true
  | _ :: _, [] => false
  | a :: as, b :: bs => if a < b then true else if b < a then false else lexLe as bs

/-- Insertion into a sorted list under the comparison le. -/
def insLe {α : Type} (le : α → α → Bool) (x : α) : List α → List α
  | [] => [x]
  | y :: ys => if le x y then x :: y :: ys else y :: insLe le x ys

/-- Stable insertion sort under the comparison le, modelling Python sorted(). -/
def sortLe {α : Type} (le : α → α → Bool) : List α → List α
  | [] => []
  | x :: xs => insLe le x (sortLe le xs)

/-- Python sorted() on a list of strings. -/
def sortStrs (l : List Str) : List Str := sortLe lexLe l

/-- The alias loop of build_action_matrix: first alias with a ticket entry. -/
def firstHit (tmap : Dict CsvRow) : List Str → Option CsvRow
  | [] => none
  | a :: rest =>
    match dget tmap a with
    | some r => some r
    | none => firstHit tmap rest

/-- The matched-entry computation of build_action_matrix: the canonical name
directly, else the first alias that is a key. -/
def lookupTicket (tmap : Dict CsvRow) (canonical : Str) (aliases : List Str) : Option CsvRow :=
  match dget tmap canonical with
  | some r => some r
  | none => firstHit tmap aliases

/-- One output row of the action matrix.  The script renders aliases and
source_forms as semicolon-joined strings; the row here keeps the sorted lists
being joined. -/
structure MatrixRow where
  action : Str
  aliases : List Str
  source_forms : List Str
  cluster : Str
  mapped_ticket : Str
  feature_group : Str
  phase : Str
  status : Str
deriving DecidableEq

/-- The row built by the per-canonical-action loop body of
build_action_matrix. -/
def rowFor (tmap : Dict CsvRow) (canonical : Str) (item : AliasAcc) : MatrixRow :=
  let aliases := sortStrs item.aliases
  let forms_for_action := sortStrs item.forms
  match lookupTicket tmap canonical aliases with
  | some r =>
      { action := canonical, aliases := aliases, source_forms := forms_for_action,
        cluster := classify_cluster canonical, mapped_ticket := r.ticket_id,
        feature_group := r.feature_group, phase := r.phase, status := "mapped".toList }
  | none =>
      { action := canonical, aliases := aliases, source_forms := forms_for_action,
        cluster := classify_cluster canonical, mapped_ticket := [],
        feature_group := [], phase := [], status := "unmapped".toList }

/-- Embedding of build_action_matrix: accumulate, then emit one row per
canonical action in ascending key order. -/
def build_action_matrix (forms : List FormSection) (tmap : Dict CsvRow) : List MatrixRow :=
  let by_action := accumulateForms forms
  (sortStrs (by_action.map Prod.fst)).map fun canonical =>
    rowFor tmap canonical ((dget by_action canonical).getD { aliases := [], forms := [] })

/-- The allow-list of option/dialog/utility forms of build_form_schema. -/
def targetForms : List Str :=
  ["TfrmOptions".toList, "TfrmOptions_Macintosh".toList, "TfrmSVGExportOptions".toList,
   "TfrmSVGExportOptions_Macintosh".toList, "TfrmStitchingHoleSettings".toList,
   "TfrmChangeStitchingHoleType".toList, "TfrmEditPallet".toList, "TfrmEditPallet_Macintosh".toList,
   "TfrmPreview".toList, "TfrmPreview_Macintosh".toList, "TfrmRepository".toList,
   "TfrmRepository_Macintosh".toList]

/-- One per-control record {id, kind, domain} of the schema export. -/
structure ControlRecord where
  id : Str
  kind : Str
  domain : Str
deriving DecidableEq

/-- Python defaultdict(int) increment counts[k] += 1. -/
def dincr (d : Dict Nat) (k : Str) : Dict Nat := dset d k ((dget d k).getD 0 + 1)

/-- One form entry of the schema document. -/
structure FormSchemaEntry where
  form_name : Str
  resource_file : Str
  action_count : Nat
  control_count : Nat
  kind_counts : Dict Nat
  domain_counts : Dict Nat
  controls : List ControlRecord
deriving DecidableEq

/-- Loop body of build_form_schema over one control id: extend the record
list and bump both tallies. -/
def schemaStep (acc : List ControlRecord × Dict Nat × Dict Nat) (control_id : Str) :
    List ControlRecord × Dict Nat × Dict Nat :=
  let kind := infer_control_kind control_id
  let domain := infer_control_domain control_id
  (acc.1 ++ [{ id := control_id, kind := kind, domain := domain }],
   dincr acc.2.1 kind, dincr acc.2.2 domain)

/-- Python dict(sorted(d.items())): entries sorted ascending by key (keys of
a dict are distinct, so key comparison alone decides the order). -/
def sortPairs (d : Dict Nat) : Dict Nat := sortLe (fun a b => lexLe a.1 b.1) d

/-- The schema entry built for one selected form. -/
def entryFor (form : FormSection) : FormSchemaEntry :=
  let acc := form.controls.foldl schemaStep ([], [], [])
  { form_name := form.form_name, resource_file := form.resource_file,
    action_count := form.actions.length, control_count := form.controls.length,
    kind_counts := sortPairs acc.2.1, domain_counts := sortPairs acc.2.2, controls := acc.1 }

/-- Embedding of build_form_schema's forms array: select the allow-listed
forms, sort them by name, and emit one entry each.  The envelope of the JSON
document (timestamp and source paths) is output I/O outside the model. -/
def build_form_schema (forms : List FormSection) : List FormSchemaEntry :=
  (sortLe (fun a b => lexLe a.form_name b.form_name)
    (forms.filter fun f => f.form_name ∈ targetForms)).map entryFor

/-- Modelled from the spec: the closed set of ten cluster categories. -/
def clusterCategories : List Str :=
  ["Transforms".toList, "LineTypePalette".toList, "GeometryEdit".toList,
   "SelectionOrdering".toList, "ProjectLifecycle".toList, "ViewportDisplay".toList,
   "HelpLinks".toList, "SecretBonus".toList, "LayerAdvanced".toList, "Other".toList]

/-- Modelled from the spec: rule-ordered classification as an ordered list of
(pattern list, category) pairs evaluated top to bottom, first match wins,
with a default category when no rule matches. -/
def evalRules (m : Str → Str → Bool) : List (List Str × Str) → Str → Str → Str
  | [], dflt, _ => dflt
  | (pats, cat) :: rest, dflt, s => if pats.any (fun p => m p s) then cat else evalRules m rest dflt s

/-- Modelled from the spec: the cluster rule table in its stated priority
order Transforms, LineTypePalette, GeometryEdit, SelectionOrdering,
ProjectLifecycle, ViewportDisplay, HelpLinks, SecretBonus, LayerAdvanced. -/
def clusterRules : List (List Str × Str) :=
  [(transformsPre, "Transforms".toList),
   (linePalettePre, "LineTypePalette".toList),
   (geometryPre, "GeometryEdit".toList),
   (selectionPre, "SelectionOrdering".toList),
   (projectPre, "ProjectLifecycle".toList),
   (viewportPre, "ViewportDisplay".toList),
   (helpPre, "HelpLinks".toList),
   (secretPre, "SecretBonus".toList),
   (layerPre, "LayerAdvanced".toList)]

/-- Modelled from the spec: the closed set of control kinds. -/
def kindCategories : List Str :=
  ["checkbox".toList, "select".toList, "radio".toList, "number".toList, "text".toList,
   "button".toList, "label".toList, "group".toList, "tab".toList, "tree".toList,
   "switch".toList, "other".toList]

/-- Modelled from the spec: the control-kind rule table in its stated
priority order. -/
def kindRules : List (List Str × Str) :=
  [(["chk".toList], "checkbox".toList),
   (["cmb".toList], "select".toList),
   (["rb".toList], "radio".toList),
   (["nb".toList], "number".toList),
   (["ed".toList], "text".toList),
   (["btn".toList], "button".toList),
   (["lbl".toList], "label".toList),
   (["gb".toList], "group".toList),
   (["tab".toList], "tab".toList),
   (["tv".toList], "tree".toList),
   (["sw".toList, "switch".toList], "switch".toList)]

/-- Modelled from the spec: the closed set of control domains. -/
def domainCategories : List Str :=
  ["stitching".toList, "export".toList, "print".toList, "line-types".toList,
   "options".toList, "repository".toList, "general".toList]

/-- Modelled from the spec: the control-domain keyword-group table in its
stated priority order. -/
def domainRules : List (List Str × Str) :=
  [(["stitch".toList, "prick".toList, "thread".toList], "stitching".toList),
   (["svg".toList, "dxf".toList], "export".toList),
   (["print".toList, "tile".toList, "dpi".toList], "print".toList),
   (["palette".toList, "line".toList, "color".toList], "line-types".toList),
   (["auto".toList, "pitch".toList, "zoom".toList, "save".toList, "option".toList],
    "options".toList),
   (["repo".toList, "catalog".toList, "template".toList], "repository".toList)]

/-- Substring-of-lowered-identifier match used by the domain rules. -/
def inLowered (tok s : Str) : Bool := hasSub tok (pyLower s)

/-- Starts-with match used by the cluster and kind rules. -/
def startsMatch (p s : Str) : Bool := startsL p s

/-- The head character of a string is whitespace. -/
def headSpace (s : Str) : Bool :=
  match s with
  | [] => false
  | c :: _ => isPySpace c

/-- The last character of a string is whitespace. -/
def lastSpace (s : Str) : Bool := headSpace s.reverse

theorem startsL_iff (p s : Str) : startsL p s = true ↔ ∃ t, s = p ++ t := by
  induction p generalizing s with
  | nil =>
    constructor
    · intro _
      exact ⟨s, rfl⟩
    · intro _
      rfl
  | cons a as ih =>
    cases s with
    | nil =>
      constructor
      · intro h
        exact absurd h (by simp [startsL])
      · rintro ⟨t, ht⟩
        exact absurd ht (by simp)
    | cons b bs =>
      constructor
      · intro h
        by_cases hab : a = b
        · subst hab
          rw [startsL, if_pos rfl] at h
          obtain ⟨t, rfl⟩ := (ih bs).mp h
          exact ⟨t, rfl⟩
        · rw [startsL, if_neg hab] at h
          exact absurd h (by simp)
      · rintro ⟨t, ht⟩
        rw [List.cons_append] at ht
        injection ht with h1 h2
        subst h1
        rw [startsL, if_pos rfl]
        exact (ih bs).mpr ⟨t, h2⟩

theorem endsL_iff (suf s : Str) : endsL suf s = true ↔ ∃ t, s = t ++ suf := by
  rw [endsL, startsL_iff]
  constructor
  · rintro ⟨t, ht⟩
    refine ⟨t.reverse, ?_⟩
    have := congrArg List.reverse ht
    simpa using this
  · rintro ⟨t, rfl⟩
    exact ⟨t.reverse, by simp⟩

theorem fixGo_zero_eq_self (s : Str) (h : hasSub palletSub s = false) : fixGo 0 s = s := by
  induction s with
  | nil => rfl
  | cons c rest ih =>
    simp only [hasSub, Bool.or_eq_false_iff] at h
    rw [fixGo, if_neg (by simp [h.1]), ih h.2]

theorem fixPallet_eq_self (s : Str) (h : hasSub palletSub s = false) : fixPallet s = s :=
  fixGo_zero_eq_self s h

theorem dropWhile_space_eq_self (l : Str) (h : headSpace l = false) :
    l.dropWhile isPySpace = l := by
  cases l with
  | nil => rfl
  | cons c t =>
    simp only [headSpace] at h
    simp [List.dropWhile_cons, h]

theorem lstrip_eq_self (s : Str) (h : headSpace s = false) : lstrip s = s :=
  dropWhile_space_eq_self s h

theorem rstrip_eq_self (s : Str) (h : lastSpace s = false) : rstrip s = s := by
  rw [rstrip, dropWhile_space_eq_self s.reverse h, List.reverse_reverse]

theorem pyStrip_eq_self (s : Str) (h1 : headSpace s = false) (h2 : lastSpace s = false) :
    pyStrip s = s := by
  rw [pyStrip, lstrip_eq_self s h1, rstrip_eq_self s h2]

theorem headSpace_lstrip (s : Str) : headSpace (lstrip s) = false := by
  induction s with
  | nil => rfl
  | cons c t ih =>
    by_cases hc : isPySpace c = true
    · simpa [lstrip, List.dropWhile_cons, hc] using ih
    · simp only [Bool.not_eq_true] at hc
      simp [lstrip, List.dropWhile_cons, hc, headSpace]

theorem headSpace_rstrip (s : Str) (h : headSpace s = false) : headSpace (rstrip s) = false := by
  have hsuf : List.IsSuffix (s.reverse.dropWhile isPySpace) s.reverse :=
    List.dropWhile_suffix isPySpace
  have hpre : List.IsPrefix (rstrip s) s := by
    rw [rstrip]
    have := List.reverse_prefix.mpr hsuf
    simpa using this
  obtain ⟨t, ht⟩ := hpre
  cases hr : rstrip s with
  | nil => rfl
  | cons c u =>
    rw [hr] at ht
    rw [← ht] at h
    simpa [headSpace] using h

theorem headSpace_take (s : Str) (n : Nat) (h : headSpace s = false) :
    headSpace (s.take n) = false := by
  cases n with
  | zero => rfl
  | succ m =>
    cases s with
    | nil => rfl
    | cons c t => simpa [headSpace, List.take] using h

theorem headSpace_fixPallet (s : Str) (h : headSpace s = false) :
    headSpace (fixPallet s) = false := by
  cases s with
  | nil => rfl
  | cons c rest =>
    rw [fixPallet, fixGo]
    by_cases hs : startsL palletSub (c :: rest) = true
    · rw [if_pos hs]
      simp [paletteSub, headSpace, isPySpace]
    · rw [if_neg hs]
      simpa [headSpace] using h

theorem headSpace_canonicalize (s : Str) : headSpace (canonicalize_action s) = false := by
  rw [canonicalize_action]
  have h0 : headSpace (pyStrip s) = false :=
    headSpace_rstrip (lstrip s) (headSpace_lstrip s)
  apply headSpace_fixPallet
  by_cases hend : endsL executeSuf (pyStrip s) = true
  · simpa [hend] using headSpace_take (pyStrip s) ((pyStrip s).length - executeSuf.length) h0
  · simpa [hend] using h0

/-- C1 (amended). Canonicalization is idempotent on every raw action string
whose canonical form does not end with the suffix "Execute", does not end in
whitespace, and does not contain the substring "LinePallet". -/
theorem canonicalize_action_idem_of_stable (s : Str)
    (h1 : endsL executeSuf (canonicalize_action s) = false)
    (h2 : lastSpace (canonicalize_action s) = false)
    (h3 : hasSub palletSub (canonicalize_action s) = false) :
    canonicalize_action (canonicalize_action s) = canonicalize_action s := by
  have hstrip : pyStrip (canonicalize_action s) = canonicalize_action s :=
    pyStrip_eq_self _ (headSpace_canonicalize s) h2
  conv_lhs => rw [canonicalize_action]
  rw [hstrip, h1]
  simp only [Bool.false_eq_true, if_false]
  exact fixPallet_eq_self _ h3

/-- C1 witness: the amended idempotence applied at a concrete action. -/
theorem canonicalize_action_idem_witness :
    endsL executeSuf (canonicalize_action "actAlignLeftExecute".toList) = false ∧
    lastSpace (canonicalize_action "actAlignLeftExecute".toList) = false ∧
    hasSub palletSub (canonicalize_action "actAlignLeftExecute".toList) = false ∧
    canonicalize_action (canonicalize_action "actAlignLeftExecute".toList) =
      canonicalize_action "actAlignLeftExecute".toList :=
  ⟨by decide, by decide, by decide,
   canonicalize_action_idem_of_stable "actAlignLeftExecute".toList
     (by decide) (by decide) (by decide)⟩

/-- C1 counterexample. Canonicalization is not idempotent as claimed: on
"actXExecuteExecute" one application yields "actXExecute" and a second
application strips the newly exposed "Execute" suffix as well. -/
theorem canonicalize_action_not_idempotent :
    canonicalize_action (canonicalize_action "actXExecuteExecute".toList) ≠
      canonicalize_action "actXExecuteExecute".toList := by decide

/-- C2 (amended). For every raw action string that trims to a string ending
in "Execute" and whose remainder after removing that suffix does not contain
"LinePallet", canonicalization strips exactly that suffix and changes
nothing else: appending "Execute" back to the canonical form restores the
trimmed input. -/
theorem canonicalize_action_strips_suffix (s : Str)
    (h1 : endsL executeSuf (pyStrip s) = true)
    (h2 : hasSub palletSub ((pyStrip s).take ((pyStrip s).length - executeSuf.length)) = false) :
    canonicalize_action s ++ executeSuf = pyStrip s := by
  obtain ⟨t, ht⟩ := (endsL_iff executeSuf (pyStrip s)).mp h1
  rw [canonicalize_action, h1]
  simp only [if_true]
  rw [fixPallet_eq_self _ h2, ht]
  have hlen : (t ++ executeSuf).length - executeSuf.length = t.length := by
    simp [List.length_append]
  rw [hlen, List.take_left]

/-- C2 witness: the amended suffix-stripping law applied at a concrete
action. -/
theorem canonicalize_action_strips_suffix_witness :
    endsL executeSuf (pyStrip "actAlignLeftExecute".toList) = true ∧
    hasSub palletSub ((pyStrip "actAlignLeftExecute".toList).take
      ((pyStrip "actAlignLeftExecute".toList).length - executeSuf.length)) = false ∧
    canonicalize_action "actAlignLeftExecute".toList ++ executeSuf =
      pyStrip "actAlignLeftExecute".toList :=
  ⟨by decide, by decide,
   canonicalize_action_strips_suffix "actAlignLeftExecute".toList (by decide) (by decide)⟩

/-- C2 counterexample. On "actLinePalletExecute" the trimmed value ends with
"Execute", yet canonicalization does not merely strip that suffix: the
misspelling fix also rewrites the remaining part, so appending "Execute"
back does not restore the trimmed input. -/
theorem canonicalize_action_changes_remainder :
    endsL executeSuf (pyStrip "actLinePalletExecute".toList) = true ∧
    canonicalize_action "actLinePalletExecute".toList ++ executeSuf ≠
      pyStrip "actLinePalletExecute".toList := ⟨by decide, by decide⟩

theorem evalRules_mem (m : Str → Str → Bool) (rules : List (List Str × Str)) (dflt s : Str) :
    evalRules m rules dflt s = dflt ∨ evalRules m rules dflt s ∈ rules.map Prod.snd := by
  induction rules with
  | nil => exact Or.inl rfl
  | cons r rest ih =>
    obtain ⟨pats, cat⟩ := r
    rw [evalRules]
    by_cases hc : (pats.any fun p => m p s) = true
    · rw [if_pos hc]
      exact Or.inr (by simp)
    · rw [if_neg hc]
      rcases ih with h | h
      · exact Or.inl h
      · exact Or.inr (by simp [h])

/-- C4. Cluster classification is total and deterministic: every action
string receives exactly one of the ten fixed categories; the classifier
equals first-match-wins evaluation of the rule table in its stated priority
order (Transforms first, Other as default), and a synthetic action matching
the starts of both ViewportDisplay and HelpLinks receives the
earlier-priority ViewportDisplay. -/
theorem classify_cluster_total_ordered (a : Str) :
    classify_cluster a ∈ clusterCategories ∧
    classify_cluster a = evalRules startsMatch clusterRules "Other".toList a ∧
    (startsAny viewportPre "actShowHideGridX".toList = true ∧
     startsAny helpPre "actShowHideGridX".toList = true ∧
     classify_cluster "actShowHideGridX".toList = "ViewportDisplay".toList) := by
  have heq : classify_cluster a = evalRules startsMatch clusterRules "Other".toList a := by
    simp only [classify_cluster, evalRules, clusterRules, startsAny, startsMatch,
      linePalettePre, secretPre, List.any_cons, List.any_nil, Bool.or_false]
  refine ⟨?_, heq, by decide, by decide, by decide⟩
  rw [heq]
  rcases evalRules_mem startsMatch clusterRules "Other".toList a with h | h
  · rw [h]; decide
  · exact (by decide : ∀ x ∈ clusterRules.map Prod.snd, x ∈ clusterCategories) _ h

/-- C9. The control kind and domain classifiers are total pure functions
into their closed category sets; each equals first-match-wins evaluation of
its rule table in its stated priority order ("other" and "general" as
defaults); and "chkStitchAutoSave" is kind "checkbox" and domain "stitching"
even though it also contains options keywords, because the stitching group
is tested first. -/
theorem infer_control_classifiers_total_ordered (cid : Str) :
    infer_control_kind cid ∈ kindCategories ∧
    infer_control_kind cid = evalRules startsMatch kindRules "other".toList cid ∧
    infer_control_domain cid ∈ domainCategories ∧
    infer_control_domain cid = evalRules inLowered domainRules "general".toList cid ∧
    (startsL "chk".toList "chkStitchAutoSave".toList = true ∧
     infer_control_kind "chkStitchAutoSave".toList = "checkbox".toList ∧
     hasSub "stitch".toList (pyLower "chkStitchAutoSave".toList) = true ∧
     hasSub "auto".toList (pyLower "chkStitchAutoSave".toList) = true ∧
     hasSub "save".toList (pyLower "chkStitchAutoSave".toList) = true ∧
     infer_control_domain "chkStitchAutoSave".toList = "stitching".toList) := by
  have hk : infer_control_kind cid = evalRules startsMatch kindRules "other".toList cid := by
    simp only [infer_control_kind, evalRules, kindRules, startsAny, startsMatch,
      List.any_cons, List.any_nil, Bool.or_false]
  have hd : infer_control_domain cid = evalRules inLowered domainRules "general".toList cid := by
    simp only [infer_control_domain, evalRules, domainRules, inLowered,
      List.any_cons, List.any_nil, Bool.or_false, Bool.or_assoc]
  refine ⟨?_, hk, ?_, hd, by decide, by decide, by decide, by decide, by decide, by decide⟩
  · rw [hk]
    rcases evalRules_mem startsMatch kindRules "other".toList cid with h | h
    · rw [h]; decide
    · exact (by decide : ∀ x ∈ kindRules.map Prod.snd, x ∈ kindCategories) _ h
  · rw [hd]
    rcases evalRules_mem inLowered domainRules "general".toList cid with h | h
    · rw [h]; decide
    · exact (by decide : ∀ x ∈ domainRules.map Prod.snd, x ∈ domainCategories) _ h

theorem dget_dset_self {α : Type} (m : Dict α) (k : Str) (v : α) :
    dget (dset m k v) k = some v := by
  induction m with
  | nil => simp [dset, dget]
  | cons e rest ih =>
    by_cases h : e.1 = k
    · simp [dset, h, dget]
    · simp [dset, h, dget, ih]

theorem dget_dset_ne {α : Type} (m : Dict α) (k k' : Str) (v : α) (h : k' ≠ k) :
    dget (dset m k' v) k = dget m k := by
  induction m with
  | nil => simp [dset, dget, h]
  | cons e rest ih =>
    rw [dset]
    by_cases he : e.1 = k'
    · rw [if_pos he, dget, if_neg h, dget, if_neg (he ▸ h)]
    · rw [if_neg he, dget, dget]
      by_cases hek : e.1 = k
      · rw [if_pos hek, if_pos hek]
      · rw [if_neg hek, if_neg hek, ih]

theorem opt_or_assoc {α : Type} (a b c : Option α) : (a.or b).or c = a.or (b.or c) := by
  cases a <;> rfl

theorem opt_or_none {α : Type} (a : Option α) : a.or none = a := by
  cases a <;> rfl

theorem head?_filter_eq_find? {α : Type} (p : α → Bool) (l : List α) :
    (l.filter p).head? = l.find? p := by
  induction l with
  | nil => rfl
  | cons a t ih =>
    by_cases h : p a = true
    · simp [List.filter_cons, h, List.find?, ih]
    · have h' : p a = false := by simpa using h
      simp [List.filter_cons, h', List.find?, ih]

theorem getLast?_filter_eq_find?_reverse {α : Type} (p : α → Bool) (l : List α) :
    (l.filter p).getLast? = l.reverse.find? p := by
  rw [List.getLast?_eq_head?_reverse, ← List.filter_reverse, head?_filter_eq_find?]

theorem loadGo_dget_nil_key (rows : List CsvRow) (m : Dict CsvRow) :
    dget (loadGo m rows) [] = dget m [] := by
  induction rows generalizing m with
  | nil => rfl
  | cons r rest ih =>
    rw [loadGo]
    by_cases hb : (pyStrip r.action).isEmpty = true
    · simp only [hb, if_true]
      exact ih m
    · simp only [hb, Bool.false_eq_true, if_false]
      rw [ih]
      apply dget_dset_ne
      intro hnil
      rw [hnil] at hb
      exact hb rfl

theorem loadGo_dget (rows : List CsvRow) (m : Dict CsvRow) (k : Str) (hk : k ≠ []) :
    dget (loadGo m rows) k =
      (rows.reverse.find? fun r => pyStrip r.action == k).or (dget m k) := by
  induction rows generalizing m with
  | nil => rfl
  | cons r rest ih =>
    rw [loadGo, List.reverse_cons, List.find?_append, opt_or_assoc]
    by_cases hb : (pyStrip r.action).isEmpty = true
    · have hnil : pyStrip r.action = [] := by
        cases hpa : pyStrip r.action with
        | nil => rfl
        | cons c t => rw [hpa] at hb; exact absurd hb (by simp [List.isEmpty])
      have hp : (fun r => pyStrip r.action == k) r = false := by
        simp only [hnil, beq_eq_false_iff_ne]
        exact fun h => hk h.symm
      simp only [hb, if_true, List.find?, hp]
      rw [ih m]
      rfl
    · simp only [hb, Bool.false_eq_true, if_false]
      rw [ih]
      by_cases hak : pyStrip r.action = k
      · have hp : (fun r => pyStrip r.action == k) r = true := by simp [hak]
        simp only [List.find?, hp]
        rw [hak, dget_dset_self]
        rfl
      · have hp : (fun r => pyStrip r.action == k) r = false := by simp [hak]
        simp only [List.find?, hp]
        rw [dget_dset_ne m k (pyStrip r.action) r hak]
        rfl

/-- C8. Loading the action-ticket CSV produces a mapping keyed by the
trimmed action column: a blank key is never present (rows blank after
trimming are skipped), and a nonblank key holds the last row of the CSV
whose trimmed action equals it (later rows overwrite earlier ones). -/
theorem load_action_ticket_map_last_wins (rows : List CsvRow) (k : Str) :
    dget (load_action_ticket_map rows) k =
      if k.isEmpty then none
      else (rows.filter fun r => pyStrip r.action == k).getLast? := by
  by_cases hk : k.isEmpty = true
  · have hknil : k = [] := by
      cases hke : k with
      | nil => rfl
      | cons c t => rw [hke] at hk; exact absurd hk (by simp [List.isEmpty])
    rw [if_pos hk, hknil, load_action_ticket_map, loadGo_dget_nil_key]
    rfl
  · have hne : k ≠ [] := by
      intro h
      rw [h] at hk
      exact hk rfl
    rw [if_neg hk, load_action_ticket_map, loadGo_dget rows [] k hne,
      getLast?_filter_eq_find?_reverse]
    have : dget ([] : Dict CsvRow) k = none := rfl
    rw [this, opt_or_none]

theorem stepBody_names (line : Str) (c : FormSection) (mode : PMode) :
    (stepBody line c mode).1.resource_file = c.resource_file ∧
    (stepBody line c mode).1.form_name = c.form_name := by
  unfold stepBody
  repeat' split
  all_goals exact ⟨rfl, rfl⟩

theorem parseGo_cons (hdr : Str → Option (Str × Str)) (line : Str) (rest : List Str)
    (forms : List FormSection) (curr : Option FormSection) (mode : PMode) :
    parseGo hdr (line :: rest) forms curr mode =
      match hdr line with
      | some g =>
          parseGo hdr rest (forms ++ curr.toList)
            (some { resource_file := pyStrip g.1, form_name := pyStrip g.2,
                    actions := [], controls := [] })
            PMode.off
      | none =>
        match curr with
        | none => parseGo hdr rest forms none mode
        | some c =>
            parseGo hdr rest forms (some (stepBody line c mode).1) (stepBody line c mode).2 := rfl

/-- The section identity carried by one parsed form. -/
def secName (f : FormSection) : Str × Str := (f.resource_file, f.form_name)

theorem parseGo_headers (hdr : Str → Option (Str × Str)) (lines : List Str)
    (forms : List FormSection) (curr : Option FormSection) (mode : PMode) :
    (parseGo hdr lines forms curr mode).map secName =
      forms.map secName ++ curr.toList.map secName ++
        (lines.filterMap hdr).map (fun g => (pyStrip g.1, pyStrip g.2)) := by
  induction lines generalizing forms curr mode with
  | nil => simp [parseGo]
  | cons line rest ih =>
    rw [parseGo_cons]
    cases hh : hdr line with
    | some g =>
      rw [ih]
      simp [List.filterMap_cons, hh, secName]
    | none =>
      cases curr with
      | none =>
        rw [ih]
        simp [List.filterMap_cons, hh]
      | some c =>
        rw [ih]
        have hn := stepBody_names line c mode
        simp [List.filterMap_cons, hh, secName, hn.1, hn.2]

theorem pyStrip_all_space (l : Str) (h : pyStrip l = []) : ∀ c ∈ l, isPySpace c = true := by
  intro c hc
  have hsplit : l.takeWhile isPySpace ++ l.dropWhile isPySpace = l :=
    List.takeWhile_append_dropWhile isPySpace l
  rw [← hsplit] at hc
  rcases List.mem_append.mp hc with h1 | h2
  · exact List.mem_takeWhile_imp h1
  · have hr : (lstrip l).reverse.dropWhile isPySpace = [] := by
      rw [pyStrip, rstrip] at h
      simpa using h
    have hall := List.dropWhile_eq_nil_iff.mp hr
    exact hall c (by simpa using h2)

theorem startsL_false_of_blank (p l : Str) (c : Char) (t : Str) (hp : p = c :: t)
    (hc : isPySpace c = false) (h : isBlankLine l = true) : startsL p l = false := by
  by_contra hs
  rw [Bool.not_eq_false] at hs
  obtain ⟨u, rfl⟩ := (startsL_iff p l).mp hs
  have hps : pyStrip (p ++ u) = [] := by
    have hbe : (pyStrip (p ++ u)).isEmpty = true := h
    cases hpse : pyStrip (p ++ u) with
    | nil => rfl
    | cons a b => rw [hpse] at hbe; exact absurd hbe (by simp [List.isEmpty])
  have hall := pyStrip_all_space (p ++ u) hps
  have hcm : c ∈ p ++ u := by
    rw [hp]
    exact List.mem_append.mpr (Or.inl (List.mem_cons_self c t))
  rw [hall c hcm] at hc
  exact absurd hc (by simp)

theorem stepBody_blank (line : Str) (c : FormSection) (mode : PMode)
    (h : isBlankLine line = true) : stepBody line c mode = (c, mode) := by
  rw [stepBody.eq_def,
    startsL_false_of_blank actionsMarker line 'A' "ctions (".toList (by decide) (by decide) h,
    startsL_false_of_blank controlsMarker line 'C' "ontrols (".toList (by decide) (by decide) h]
  simp [h]

theorem parseGo_filter_blank (hdr : Str → Option (Str × Str))
    (hblank : ∀ l, isBlankLine l = true → hdr l = none) (lines : List Str)
    (forms : List FormSection) (curr : Option FormSection) (mode : PMode) :
    parseGo hdr (lines.filter fun l => !isBlankLine l) forms curr mode =
      parseGo hdr lines forms curr mode := by
  induction lines generalizing forms curr mode with
  | nil => rfl
  | cons line rest ih =>
    by_cases hb : isBlankLine line = true
    · rw [List.filter_cons, if_neg (by simp [hb])]
      rw [parseGo_cons, hblank line hb]
      cases curr with
      | none => exact ih forms none mode
      | some c =>
        show parseGo hdr (List.filter (fun l => !isBlankLine l) rest) forms (some c) mode =
          parseGo hdr rest forms (some (stepBody line c mode).1) (stepBody line c mode).2
        rw [stepBody_blank line c mode hb]
        exact ih forms (some c) mode
    · rw [List.filter_cons, if_pos (by simp [hb])]
      rw [parseGo_cons, parseGo_cons]
      cases hh : hdr line with
      | some g => exact ih _ _ _
      | none =>
        cases curr with
        | none => exact ih _ _ _
        | some c => exact ih _ _ _

theorem parseGo_skip (hdr : Str → Option (Str × Str)) (junk lines : List Str)
    (forms : List FormSection) (mode : PMode) :
    (∀ l ∈ junk, hdr l = none) →
      parseGo hdr (junk ++ lines) forms none mode = parseGo hdr lines forms none mode := by
  induction junk with
  | nil => intro _; rfl
  | cons j rest ih =>
    intro hj
    rw [List.cons_append, parseGo_cons, hj j (List.mem_cons_self j rest)]
    exact ih fun l hl => hj l (List.mem_cons_of_mem j hl)

/-- C7. The section parser emits exactly one FormSection per header-matching
line, in file order: the (resource_file, form_name) identities of the result
are precisely the stripped capture groups of the header lines in order (so
the section still in progress at end of input is finalized and included);
removing blank lines does not change the result (no blank line matches the
header test, as the hypothesis records for the abstracted header match); and
any run of non-header lines before the first header is ignored. -/
theorem parse_form_sections_spec (hdr : Str → Option (Str × Str)) (lines junk : List Str) :
    ((parse_form_sections hdr lines).map secName =
      (lines.filterMap hdr).map fun g => (pyStrip g.1, pyStrip g.2)) ∧
    ((∀ l, isBlankLine l = true → hdr l = none) →
      parse_form_sections hdr (lines.filter fun l => !isBlankLine l) =
        parse_form_sections hdr lines) ∧
    ((∀ l ∈ junk, hdr l = none) →
      parse_form_sections hdr (junk ++ lines) = parse_form_sections hdr lines) := by
  refine ⟨?_, ?_, ?_⟩
  · rw [parse_form_sections, parseGo_headers]
    rfl
  · intro hblank
    exact parseGo_filter_blank hdr hblank lines [] none PMode.off
  · intro hj
    exact parseGo_skip hdr junk lines [] PMode.off hj

/-- Example header test exercising the parser theorem: a line starting with
"===" is a header with fixed capture groups. -/
def hdrEx (l : Str) : Option (Str × Str) :=
  if startsL "===".toList l then some ("r1.rc".toList, "TfrmLeat".toList) else none

theorem hdrEx_blank (l : Str) (hl : isBlankLine l = true) : hdrEx l = none := by
  rw [hdrEx, startsL_false_of_blank "===".toList l '=' "==".toList (by decide) (by decide) hl]
  rfl

/-- C7 witness: the parser law applied at a concrete header test, junk run
and line list. -/
theorem parse_form_sections_spec_witness :
    (parse_form_sections hdrEx
        (["junk".toList, "".toList] ++
          ["=== r | f |".toList, "Actions (2)".toList, "actA".toList]) =
      parse_form_sections hdrEx
        ["=== r | f |".toList, "Actions (2)".toList, "actA".toList]) ∧
    (parse_form_sections hdrEx
        ((["=== r | f |".toList, "".toList, "actA".toList]).filter fun l => !isBlankLine l) =
      parse_form_sections hdrEx ["=== r | f |".toList, "".toList, "actA".toList]) :=
  ⟨(parse_form_sections_spec hdrEx
      ["=== r | f |".toList, "Actions (2)".toList, "actA".toList]
      ["junk".toList, "".toList]).2.2 (by decide),
   (parse_form_sections_spec hdrEx
      ["=== r | f |".toList, "".toList, "actA".toList] []).2.1 hdrEx_blank⟩

theorem lexLe_total (a b : Str) : lexLe a b = true ∨ lexLe b a = true := by
  induction a generalizing b with
  | nil => exact Or.inl rfl
  | cons x xs ih =>
    cases b with
    | nil => exact Or.inr rfl
    | cons y ys =>
      rcases lt_trichotomy x y with h | h | h
      · left
        rw [lexLe, if_pos h]
      · subst h
        rcases ih ys with h2 | h2
        · left
          rw [lexLe, if_neg (lt_irrefl x), if_neg (lt_irrefl x)]
          exact h2
        · right
          rw [lexLe, if_neg (lt_irrefl x), if_neg (lt_irrefl x)]
          exact h2
      · right
        rw [lexLe, if_pos h]

theorem lexLe_trans (a b c : Str) (h1 : lexLe a b = true) (h2 : lexLe b c = true) :
    lexLe a c = true := by
  induction a generalizing b c with
  | nil => rfl
  | cons x xs ih =>
    cases b with
    | nil => simp [lexLe] at h1
    | cons y ys =>
      cases c with
      | nil => simp [lexLe] at h2
      | cons z zs =>
        rw [lexLe] at h1 h2 ⊢
        by_cases hxy : x < y
        · by_cases hyz : y < z
          · rw [if_pos (lt_trans hxy hyz)]
          · by_cases hzy : z < y
            · rw [if_neg hyz, if_pos hzy] at h2
              exact absurd h2 (by simp)
            · have hyez : y = z := le_antisymm (le_of_not_lt hzy) (le_of_not_lt hyz)
              subst hyez
              rw [if_pos hxy]
        · by_cases hyx : y < x
          · rw [if_neg hxy, if_pos hyx] at h1
            exact absurd h1 (by simp)
          · have hxey : x = y := le_antisymm (le_of_not_lt hyx) (le_of_not_lt hxy)
            subst hxey
            rw [if_neg (lt_irrefl x), if_neg (lt_irrefl x)] at h1
            by_cases hxz : x < z
            · rw [if_pos hxz]
            · by_cases hzx : z < x
              · rw [if_neg hxz, if_pos hzx] at h2
                exact absurd h2 (by simp)
              · rw [if_neg hxz, if_neg hzx] at h2
                rw [if_neg hxz, if_neg hzx]
                exact ih ys zs h1 h2

theorem lexLe_antisymm (a b : Str) (h1 : lexLe a b = true) (h2 : lexLe b a = true) : a = b := by
  induction a generalizing b with
  | nil =>
    cases b with
    | nil => rfl
    | cons y ys => simp [lexLe] at h2
  | cons x xs ih =>
    cases b with
    | nil => simp [lexLe] at h1
    | cons y ys =>
      rw [lexLe] at h1 h2
      by_cases hxy : x < y
      · rw [if_neg (lt_asymm hxy), if_pos hxy] at h2
        exact absurd h2 (by simp)
      · by_cases hyx : y < x
        · rw [if_neg hxy, if_pos hyx] at h1
          exact absurd h1 (by simp)
        · have hxey : x = y := le_antisymm (le_of_not_lt hyx) (le_of_not_lt hxy)
          subst hxey
          rw [if_neg (lt_irrefl x), if_neg (lt_irrefl x)] at h1
          rw [if_neg (lt_irrefl x), if_neg (lt_irrefl x)] at h2
          rw [ih ys h1 h2]

theorem insLe_perm {α : Type} (le : α → α → Bool) (x : α) (l : List α) :
    List.Perm (insLe le x l) (x :: l) := by
  induction l with
  | nil => exact List.Perm.refl _
  | cons y ys ih =>
    rw [insLe]
    by_cases h : le x y = true
    · rw [if_pos h]
    · rw [if_neg h]
      exact List.Perm.trans (List.Perm.cons y ih) (List.Perm.swap x y ys)

theorem sortLe_perm {α : Type} (le : α → α → Bool) (l : List α) :
    List.Perm (sortLe le l) l := by
  induction l with
  | nil => exact List.Perm.refl _
  | cons x xs ih =>
    rw [sortLe]
    exact List.Perm.trans (insLe_perm le x (sortLe le xs)) (List.Perm.cons x ih)

theorem insLe_pairwise {α : Type} (le : α → α → Bool)
    (tot : ∀ a b, le a b = true ∨ le b a = true)
    (tr : ∀ a b c, le a b = true → le b c = true → le a c = true)
    (x : α) (l : List α) (h : l.Pairwise fun a b => le a b = true) :
    (insLe le x l).Pairwise fun a b => le a b = true := by
  induction l with
  | nil => simp [insLe]
  | cons y ys ih =>
    rw [insLe]
    rcases List.pairwise_cons.mp h with ⟨hy, hys⟩
    by_cases hxy : le x y = true
    · rw [if_pos hxy]
      refine List.pairwise_cons.mpr ⟨?_, h⟩
      intro z hz
      rcases List.mem_cons.mp hz with rfl | hz'
      · exact hxy
      · exact tr x y z hxy (hy z hz')
    · rw [if_neg hxy]
      have hyx : le y x = true := (tot x y).resolve_left hxy
      refine List.pairwise_cons.mpr ⟨?_, ih hys⟩
      intro z hz
      have hz2 := (insLe_perm le x ys).mem_iff.mp hz
      rcases List.mem_cons.mp hz2 with rfl | hz'
      · exact hyx
      · exact hy z hz'

theorem sortLe_pairwise {α : Type} (le : α → α → Bool)
    (tot : ∀ a b, le a b = true ∨ le b a = true)
    (tr : ∀ a b c, le a b = true → le b c = true → le a c = true)
    (l : List α) : (sortLe le l).Pairwise fun a b => le a b = true := by
  induction l with
  | nil => simp [sortLe]
  | cons x xs ih =>
    rw [sortLe]
    exact insLe_pairwise le tot tr x _ ih

/-- Strict ascending order on strings: at most under lexLe and distinct,
capturing "sorted ascending with no duplicates". -/
def strLt (a b : Str) : Prop := lexLe a b = true ∧ a ≠ b

theorem sortStrs_pairwise (l : List Str) :
    (sortStrs l).Pairwise fun a b => lexLe a b = true :=
  sortLe_pairwise lexLe lexLe_total lexLe_trans l

theorem sortStrs_pairwise_lt (l : List Str) (hnd : l.Nodup) : (sortStrs l).Pairwise strLt := by
  have h1 := sortStrs_pairwise l
  have h2 : (sortStrs l).Nodup := ((sortLe_perm lexLe l).nodup_iff).mpr hnd
  exact h1.and h2

theorem dget_mem {α : Type} (m : Dict α) (k : Str) (v : α) (h : dget m k = some v) :
    (k, v) ∈ m := by
  induction m with
  | nil => simp [dget] at h
  | cons e rest ih =>
    obtain ⟨a, b⟩ := e
    rw [dget] at h
    by_cases ha : a = k
    · rw [if_pos ha] at h
      injection h with h
      subst ha
      subst h
      exact List.mem_cons_self _ _
    · rw [if_neg ha] at h
      exact List.mem_cons_of_mem _ (ih h)

theorem mem_keys_dget {α : Type} (m : Dict α) (k : Str) (h : k ∈ m.map Prod.fst) :
    ∃ v, dget m k = some v := by
  induction m with
  | nil => simp at h
  | cons e rest ih =>
    obtain ⟨a, b⟩ := e
    rw [List.map_cons] at h
    rcases List.mem_cons.mp h with rfl | h2
    · exact ⟨b, by rw [dget, if_pos rfl]⟩
    · by_cases ha : a = k
      · exact ⟨b, by rw [dget, if_pos ha]⟩
      · obtain ⟨v, hv⟩ := ih h2
        exact ⟨v, by rw [dget, if_neg ha, hv]⟩

theorem mem_dset {α : Type} (m : Dict α) (k : Str) (v : α) (x : Str × α)
    (h : x ∈ dset m k v) : x ∈ m ∨ x = (k, v) := by
  induction m with
  | nil =>
    rw [dset] at h
    exact Or.inr (List.mem_singleton.mp h)
  | cons e rest ih =>
    rw [dset] at h
    by_cases he : e.1 = k
    · rw [if_pos he] at h
      rcases List.mem_cons.mp h with rfl | h2
      · exact Or.inr rfl
      · exact Or.inl (List.mem_cons_of_mem _ h2)
    · rw [if_neg he] at h
      rcases List.mem_cons.mp h with rfl | h2
      · exact Or.inl (List.mem_cons_self _ _)
      · rcases ih h2 with h3 | h3
        · exact Or.inl (List.mem_cons_of_mem _ h3)
        · exact Or.inr h3

theorem keys_dset {α : Type} (m : Dict α) (k : Str) (v : α) :
    (dset m k v).map Prod.fst =
      if k ∈ m.map Prod.fst then m.map Prod.fst else m.map Prod.fst ++ [k] := by
  induction m with
  | nil =>
    rw [dset]
    simp only [List.map_nil]
    rw [if_neg (List.not_mem_nil k)]
    rfl
  | cons e rest ih =>
    obtain ⟨a, b⟩ := e
    rw [dset]
    by_cases ha : a = k
    · subst ha
      rw [if_pos rfl]
      simp only [List.map_cons]
      rw [if_pos (List.mem_cons_self _ _)]
    · rw [if_neg ha, List.map_cons, List.map_cons, ih]
      by_cases hk : k ∈ rest.map Prod.fst
      · rw [if_pos hk, if_pos (by simp [hk])]
      · have hnotin : k ∉ (a, b).1 :: rest.map Prod.fst := by
          intro hmem
          rcases List.mem_cons.mp hmem with h | h
          · exact ha h.symm
          · exact hk h
        rw [if_neg hk, if_neg hnotin, List.cons_append]

theorem nodup_keys_dset {α : Type} (m : Dict α) (k : Str) (v : α)
    (h : (m.map Prod.fst).Nodup) : ((dset m k v).map Prod.fst).Nodup := by
  rw [keys_dset]
  by_cases hk : k ∈ m.map Prod.fst
  · rw [if_pos hk]
    exact h
  · rw [if_neg hk]
    simp [List.nodup_append, h, hk]

theorem foldl_inv {α β : Type} (P : β → Prop) (f : β → α → β) (l : List α) (b : β)
    (hb : P b) (hstep : ∀ b a, a ∈ l → P b → P (f b a)) : P (l.foldl f b) := by
  induction l generalizing b with
  | nil => exact hb
  | cons a t ih =>
    rw [List.foldl_cons]
    exact ih (f b a) (hstep b a (List.mem_cons_self a t) hb)
      fun b' a' ha' hb' => hstep b' a' (List.mem_cons_of_mem a ha') hb'

theorem sadd_nodup (l : List Str) (x : Str) (h : l.Nodup) : (sadd l x).Nodup := by
  rw [sadd]
  by_cases hx : x ∈ l
  · rw [if_pos hx]
    exact h
  · rw [if_neg hx]
    simp [List.nodup_append, h, hx]

theorem mem_sadd (l : List Str) (x y : Str) (h : y ∈ sadd l x) : y ∈ l ∨ y = x := by
  rw [sadd] at h
  by_cases hx : x ∈ l
  · rw [if_pos hx] at h
    exact Or.inl h
  · rw [if_neg hx] at h
    rcases List.mem_append.mp h with h2 | h2
    · exact Or.inl h2
    · exact Or.inr (List.mem_singleton.mp h2)

/-- Invariant of the by_action accumulator: keys are distinct canonical
actions starting with "act", and every record holds duplicate-free alias and
form sets with each form drawn from the allow-list. -/
def accInv (m : Dict AliasAcc) : Prop :=
  (m.map Prod.fst).Nodup ∧
  ∀ kv ∈ m, startsL actTag kv.1 = true ∧ kv.2.aliases.Nodup ∧ kv.2.forms.Nodup ∧
    ∀ g ∈ kv.2.forms, g ∈ allowedForms

theorem accInv_addAction (fname : Str) (hf : fname ∈ allowedForms) (m : Dict AliasAcc)
    (raw : Str) (h : accInv m) : accInv (addAction fname m raw) := by
  simp only [addAction]
  by_cases hc : startsL actTag (canonicalize_action raw) = true
  · rw [if_pos hc]
    constructor
    · exact nodup_keys_dset _ _ _ h.1
    · intro kv hkv
      rcases mem_dset _ _ _ _ hkv with hm | heq
      · exact h.2 kv hm
      · subst heq
        cases hit : dget m (canonicalize_action raw) with
        | none =>
          refine ⟨hc, ?_, ?_, ?_⟩
          · simp [sadd]
          · simp [sadd]
          · intro g hg
            rcases mem_sadd (((none : Option AliasAcc).getD { aliases := [], forms := [] }).forms)
                fname g hg with hg2 | rfl
            · simp at hg2
            · exact hf
        | some it =>
          have hprops := h.2 (canonicalize_action raw, it) (dget_mem _ _ _ hit)
          refine ⟨hc, sadd_nodup _ _ hprops.2.1, sadd_nodup _ _ hprops.2.2.1, ?_⟩
          intro g hg
          rcases mem_sadd (((some it).getD { aliases := [], forms := [] }).forms)
              fname g hg with hg2 | rfl
          · exact hprops.2.2.2 g hg2
          · exact hf
  · rw [if_neg hc]
    exact h

theorem accInv_accumulate (forms : List FormSection) : accInv (accumulateForms forms) := by
  rw [accumulateForms]
  refine foldl_inv accInv addForm forms [] ⟨List.nodup_nil, ?_⟩ ?_
  · intro kv hkv
    exact absurd hkv (List.not_mem_nil kv)
  · intro b f _ hb
    rw [addForm]
    by_cases hfa : f.form_name ∈ allowedForms
    · rw [if_pos hfa]
      exact foldl_inv accInv (addAction f.form_name) f.actions b hb
        fun b' a _ hb' => accInv_addAction f.form_name hfa b' a hb'
    · rw [if_neg hfa]
      exact hb

theorem foldl_addForm_filter (forms : List FormSection) (m : Dict AliasAcc) :
    (forms.filter fun f => f.form_name ∈ allowedForms).foldl addForm m =
      forms.foldl addForm m := by
  induction forms generalizing m with
  | nil => rfl
  | cons f rest ih =>
    rw [List.filter_cons]
    by_cases hf : f.form_name ∈ allowedForms
    · rw [if_pos (by simp [hf]), List.foldl_cons, List.foldl_cons]
      exact ih (addForm m f)
    · rw [if_neg (by simp [hf]), List.foldl_cons]
      have hmf : addForm m f = m := by rw [addForm, if_neg hf]
      rw [hmf]
      exact ih m

theorem foldl_addAction_filter (fname : Str) (actions : List Str) (m : Dict AliasAcc) :
    (actions.filter fun a => startsL actTag (canonicalize_action a)).foldl (addAction fname) m =
      actions.foldl (addAction fname) m := by
  induction actions generalizing m with
  | nil => rfl
  | cons a rest ih =>
    rw [List.filter_cons]
    by_cases hc : startsL actTag (canonicalize_action a) = true
    · rw [if_pos hc, List.foldl_cons, List.foldl_cons]
      exact ih (addAction fname m a)
    · have hma : addAction fname m a = m := by
        simp only [addAction]
        rw [if_neg hc]
      rw [if_neg (by simp [hc]), List.foldl_cons, hma]
      exact ih m

theorem accumulate_filter_forms (forms : List FormSection) :
    accumulateForms (forms.filter fun f => f.form_name ∈ allowedForms) =
      accumulateForms forms := by
  rw [accumulateForms, accumulateForms, foldl_addForm_filter]

theorem addForm_filter_actions (m : Dict AliasAcc) (f : FormSection) :
    addForm m
        { f with actions := f.actions.filter fun a => startsL actTag (canonicalize_action a) } =
      addForm m f := by
  rw [addForm, addForm]
  by_cases hf : f.form_name ∈ allowedForms
  · rw [if_pos hf, if_pos hf]
    exact foldl_addAction_filter f.form_name f.actions m
  · rw [if_neg hf, if_neg hf]

theorem accumulate_filter_actions (forms : List FormSection) :
    accumulateForms (forms.map fun f =>
        { f with actions := f.actions.filter fun a => startsL actTag (canonicalize_action a) }) =
      accumulateForms forms := by
  rw [accumulateForms, accumulateForms]
  have key : ∀ (fs : List FormSection) (m : Dict AliasAcc),
      ((fs.map fun f =>
        { f with actions := f.actions.filter fun a => startsL actTag (canonicalize_action a) })
          : List FormSection).foldl addForm m = fs.foldl addForm m := by
    intro fs
    induction fs with
    | nil => intro m; rfl
    | cons f rest ih =>
      intro m
      rw [List.map_cons, List.foldl_cons, List.foldl_cons, addForm_filter_actions]
      exact ih (addForm m f)
  exact key forms []

theorem rowFor_action (tmap : Dict CsvRow) (canonical : Str) (item : AliasAcc) :
    (rowFor tmap canonical item).action = canonical := by
  cases h : lookupTicket tmap canonical (sortStrs item.aliases) <;> simp [rowFor, h]

theorem rowFor_aliases (tmap : Dict CsvRow) (canonical : Str) (item : AliasAcc) :
    (rowFor tmap canonical item).aliases = sortStrs item.aliases := by
  cases h : lookupTicket tmap canonical (sortStrs item.aliases) <;> simp [rowFor, h]

theorem rowFor_forms (tmap : Dict CsvRow) (canonical : Str) (item : AliasAcc) :
    (rowFor tmap canonical item).source_forms = sortStrs item.forms := by
  cases h : lookupTicket tmap canonical (sortStrs item.aliases) <;> simp [rowFor, h]

theorem mem_build (forms : List FormSection) (tmap : Dict CsvRow) (row : MatrixRow)
    (h : row ∈ build_action_matrix forms tmap) :
    ∃ c item, (c, item) ∈ accumulateForms forms ∧
      dget (accumulateForms forms) c = some item ∧ row = rowFor tmap c item := by
  simp only [build_action_matrix] at h
  rcases List.mem_map.mp h with ⟨c, hc, hrow⟩
  have hck : c ∈ (accumulateForms forms).map Prod.fst :=
    (sortLe_perm lexLe ((accumulateForms forms).map Prod.fst)).mem_iff.mp hc
  obtain ⟨v, hv⟩ := mem_keys_dget (accumulateForms forms) c hck
  refine ⟨c, v, dget_mem _ _ _ hv, hv, ?_⟩
  rw [← hrow, hv]
  rfl

/-- C5. build_action_matrix draws only from the two allow-listed primary
forms and only from raw actions whose canonical form starts with "act":
restricting the input to the allowed forms, or restricting every form's raw
actions to those whose canonical form starts with "act", leaves the output
unchanged (so an excluded form or action contributes no row, alias or
form-name entry); moreover every output row's action starts with "act" and
every listed source form is allow-listed. -/
theorem build_action_matrix_scope (forms : List FormSection) (tmap : Dict CsvRow) :
    build_action_matrix forms tmap =
      build_action_matrix (forms.filter fun f => f.form_name ∈ allowedForms) tmap ∧
    build_action_matrix forms tmap =
      build_action_matrix (forms.map fun f =>
        { f with actions := f.actions.filter fun a => startsL actTag (canonicalize_action a) })
        tmap ∧
    ∀ row ∈ build_action_matrix forms tmap,
      startsL actTag row.action = true ∧ ∀ g ∈ row.source_forms, g ∈ allowedForms := by
  refine ⟨?_, ?_, ?_⟩
  · simp only [build_action_matrix, accumulate_filter_forms]
  · simp only [build_action_matrix, accumulate_filter_actions]
  · intro row hrow
    obtain ⟨c, item, hmem, hget, rfl⟩ := mem_build forms tmap row hrow
    have hinv := (accInv_accumulate forms).2 (c, item) hmem
    constructor
    · rw [rowFor_action]
      exact hinv.1
    · intro g hg
      rw [rowFor_forms] at hg
      have hgm : g ∈ item.forms := (sortLe_perm lexLe item.forms).mem_iff.mp hg
      exact hinv.2.2.2 g hgm

/-- Concrete single-form input used by the matrix witnesses. -/
def formsEx : List FormSection :=
  [{ resource_file := "r1.rc".toList, form_name := "TfrmLeat".toList,
     actions := ["actAlignLeftExecute".toList, "actAlignLeft".toList], controls := [] }]

/-- Concrete one-row ticket map used by the matrix witnesses. -/
def tmapEx : Dict CsvRow :=
  load_action_ticket_map
    [{ action := "actAlignLeft".toList, ticket_id := "T-1".toList,
       feature_group := "Transforms".toList, phase := "1".toList }]

/-- The single action-matrix row produced from formsEx and tmapEx. -/
def rowEx : MatrixRow :=
  { action := "actAlignLeft".toList,
    aliases := ["actAlignLeft".toList, "actAlignLeftExecute".toList],
    source_forms := ["TfrmLeat".toList],
    cluster := "Transforms".toList,
    mapped_ticket := "T-1".toList, feature_group := "Transforms".toList,
    phase := "1".toList, status := "mapped".toList }

example : build_action_matrix formsEx tmapEx = [rowEx] := by decide

/-- C5 witness: the scope law applied at the concrete input and row. -/
theorem build_action_matrix_scope_witness :
    startsL actTag rowEx.action = true ∧ ∀ g ∈ rowEx.source_forms, g ∈ allowedForms :=
  (build_action_matrix_scope formsEx tmapEx).2.2 rowEx (by decide)

/-- C6. The action-matrix rows are sorted strictly ascending by canonical
action name, so each canonical action appears exactly once; and every row's
alias list and source-form list are sorted strictly ascending (sorted with
no duplicates), whatever duplicates or ordering the parsed input lists
carried. -/
theorem build_action_matrix_sorted (forms : List FormSection) (tmap : Dict CsvRow) :
    ((build_action_matrix forms tmap).map MatrixRow.action).Pairwise strLt ∧
    ∀ row ∈ build_action_matrix forms tmap,
      row.aliases.Pairwise strLt ∧ row.source_forms.Pairwise strLt := by
  constructor
  · simp only [build_action_matrix, List.map_map]
    rw [List.pairwise_map]
    apply List.Pairwise.imp ?imp
      (sortStrs_pairwise_lt ((accumulateForms forms).map Prod.fst) (accInv_accumulate forms).1)
    intro a b hab
    simpa [Function.comp, rowFor_action] using hab
  · intro row hrow
    obtain ⟨c, item, hmem, hget, rfl⟩ := mem_build forms tmap row hrow
    have hinv := (accInv_accumulate forms).2 (c, item) hmem
    constructor
    · rw [rowFor_aliases]
      exact sortStrs_pairwise_lt _ hinv.2.1
    · rw [rowFor_forms]
      exact sortStrs_pairwise_lt _ hinv.2.2.1

/-- C6 witness: the sortedness law applied at the concrete input and row. -/
theorem build_action_matrix_sorted_witness :
    rowEx.aliases.Pairwise strLt ∧ rowEx.source_forms.Pairwise strLt :=
  (build_action_matrix_sorted formsEx tmapEx).2 rowEx (by decide)

theorem rowFor_of_lookup_some (tmap : Dict CsvRow) (canonical : Str) (item : AliasAcc)
    (r : CsvRow) (h : lookupTicket tmap canonical (sortStrs item.aliases) = some r) :
    (rowFor tmap canonical item).mapped_ticket = r.ticket_id ∧
    (rowFor tmap canonical item).feature_group = r.feature_group ∧
    (rowFor tmap canonical item).phase = r.phase ∧
    (rowFor tmap canonical item).status = "mapped".toList := by
  simp [rowFor, h]

theorem rowFor_of_lookup_none (tmap : Dict CsvRow) (canonical : Str) (item : AliasAcc)
    (h : lookupTicket tmap canonical (sortStrs item.aliases) = none) :
    (rowFor tmap canonical item).mapped_ticket = [] ∧
    (rowFor tmap canonical item).feature_group = [] ∧
    (rowFor tmap canonical item).phase = [] ∧
    (rowFor tmap canonical item).status = "unmapped".toList := by
  simp [rowFor, h]

theorem lookupTicket_pos (tmap : Dict CsvRow) (c : Str) (aliases : List Str) (r : CsvRow)
    (h : dget tmap c = some r) : lookupTicket tmap c aliases = some r := by
  simp [lookupTicket, h]

theorem lookupTicket_neg (tmap : Dict CsvRow) (c : Str) (aliases : List Str)
    (h : dget tmap c = none) : lookupTicket tmap c aliases = firstHit tmap aliases := by
  simp [lookupTicket, h]

theorem firstHit_eq_none (tmap : Dict CsvRow) (l : List Str)
    (h : ∀ a ∈ l, dget tmap a = none) : firstHit tmap l = none := by
  induction l with
  | nil => rfl
  | cons a t ih =>
    rw [firstHit, h a (List.mem_cons_self a t)]
    exact ih fun x hx => h x (List.mem_cons_of_mem a hx)

theorem firstHit_of_first (tmap : Dict CsvRow) (l : List Str) (i : Nat) (hi : i < l.length)
    (r : CsvRow) (hr : dget tmap (l.get ⟨i, hi⟩) = some r)
    (hbefore : ∀ (j : Nat) (hj : j < i), dget tmap (l.get ⟨j, Nat.lt_trans hj hi⟩) = none) :
    firstHit tmap l = some r := by
  induction l generalizing i with
  | nil => exact absurd hi (Nat.not_lt_zero i)
  | cons a t ih =>
    cases i with
    | zero =>
      have ha : dget tmap a = some r := hr
      rw [firstHit, ha]
    | succ n =>
      have ha : dget tmap a = none := hbefore 0 (Nat.succ_pos n)
      rw [firstHit, ha]
      exact ih n (Nat.lt_of_succ_lt_succ hi) hr fun j hj => hbefore (j + 1) (Nat.succ_lt_succ hj)

/-- C3. For every action-matrix row: the alias list is in ascending order;
if the canonical action is a key of the ticket map the row carries that
entry's ticket_id, feature_group and phase with status "mapped"; if the
canonical action is absent and some alias is a key, the row carries the
entry of the first such alias in that ascending order with status "mapped";
and if neither is a key the row has status "unmapped" with empty ticket
fields. -/
theorem build_action_matrix_reconciliation (forms : List FormSection) (tmap : Dict CsvRow)
    (row : MatrixRow) (h : row ∈ build_action_matrix forms tmap) :
    (row.aliases.Pairwise fun a b => lexLe a b = true) ∧
    (∀ r, dget tmap row.action = some r →
      row.mapped_ticket = r.ticket_id ∧ row.feature_group = r.feature_group ∧
      row.phase = r.phase ∧ row.status = "mapped".toList) ∧
    (dget tmap row.action = none →
      ∀ (i : Nat) (hi : i < row.aliases.length) (r : CsvRow),
        dget tmap (row.aliases.get ⟨i, hi⟩) = some r →
        (∀ (j : Nat) (hj : j < i), dget tmap (row.aliases.get ⟨j, Nat.lt_trans hj hi⟩) = none) →
        row.mapped_ticket = r.ticket_id ∧ row.feature_group = r.feature_group ∧
        row.phase = r.phase ∧ row.status = "mapped".toList) ∧
    (dget tmap row.action = none → (∀ a ∈ row.aliases, dget tmap a = none) →
      row.mapped_ticket = [] ∧ row.feature_group = [] ∧ row.phase = [] ∧
      row.status = "unmapped".toList) := by
  obtain ⟨c, item, hmem, hget, rfl⟩ := mem_build forms tmap row h
  have hact := rowFor_action tmap c item
  have hali := rowFor_aliases tmap c item
  refine ⟨?_, ?_, ?_, ?_⟩
  · rw [hali]
    exact sortStrs_pairwise item.aliases
  · intro r hr
    rw [hact] at hr
    exact rowFor_of_lookup_some tmap c item r (lookupTicket_pos tmap c _ r hr)
  · intro hnone i hi r hr hbef
    rw [hact] at hnone
    have hfh : firstHit tmap ((rowFor tmap c item).aliases) = some r :=
      firstHit_of_first tmap _ i hi r hr hbef
    rw [hali] at hfh
    exact rowFor_of_lookup_some tmap c item r
      ((lookupTicket_neg tmap c _ hnone).trans hfh)
  · intro hnone hall
    rw [hact] at hnone
    rw [hali] at hall
    exact rowFor_of_lookup_none tmap c item
      ((lookupTicket_neg tmap c _ hnone).trans (firstHit_eq_none tmap _ hall))

/-- C3 witness: reconciliation applied at the concrete input, row and ticket
entry. -/
theorem build_action_matrix_reconciliation_witness :
    rowEx.mapped_ticket = "T-1".toList ∧ rowEx.feature_group = "Transforms".toList ∧
    rowEx.phase = "1".toList ∧ rowEx.status = "mapped".toList :=
  (build_action_matrix_reconciliation formsEx tmapEx rowEx (by decide)).2.1
    { action := "actAlignLeft".toList, ticket_id := "T-1".toList,
      feature_group := "Transforms".toList, phase := "1".toList } (by decide)

/-- Sum of the counter values of a tally dictionary. -/
def sumVals (d : Dict Nat) : Nat := (d.map Prod.snd).sum

theorem sumVals_dincr (d : Dict Nat) (k : Str) : sumVals (dincr d k) = sumVals d + 1 := by
  induction d with
  | nil => rfl
  | cons e rest ih =>
    obtain ⟨a, b⟩ := e
    rw [dincr, dget]
    by_cases hak : a = k
    · rw [if_pos hak, dset, if_pos hak]
      simp only [sumVals, List.map_cons, List.sum_cons, Option.getD_some]
      omega
    · rw [if_neg hak, dset, if_neg hak]
      rw [dincr] at ih
      simp only [sumVals, List.map_cons, List.sum_cons] at ih ⊢
      omega

theorem sumVals_foldl_dincr (ks : List Str) (d : Dict Nat) :
    sumVals (ks.foldl dincr d) = sumVals d + ks.length := by
  induction ks generalizing d with
  | nil => simp
  | cons k t ih =>
    rw [List.foldl_cons, ih, sumVals_dincr, List.length_cons]
    omega

theorem schemaFold_char (controls : List Str) (recs : List ControlRecord) (kc dc : Dict Nat) :
    controls.foldl schemaStep (recs, kc, dc) =
      (recs ++ controls.map (fun cid =>
        { id := cid, kind := infer_control_kind cid, domain := infer_control_domain cid }),
       (controls.map infer_control_kind).foldl dincr kc,
       (controls.map infer_control_domain).foldl dincr dc) := by
  induction controls generalizing recs kc dc with
  | nil => simp
  | cons cid t ih =>
    rw [List.foldl_cons]
    rw [show schemaStep (recs, kc, dc) cid =
      (recs ++ [{ id := cid, kind := infer_control_kind cid,
                  domain := infer_control_domain cid }],
       dincr kc (infer_control_kind cid), dincr dc (infer_control_domain cid)) from rfl]
    rw [ih]
    simp

theorem sumVals_sortPairs (d : Dict Nat) : sumVals (sortPairs d) = sumVals d := by
  have hperm := sortLe_perm (fun a b => lexLe a.1 b.1) d
  exact (hperm.map Prod.snd).sum_eq

/-- C10. Every form entry of the schema document is internally consistent:
control_count equals the length of the controls list and the sum of the
kind_counts values and the sum of the domain_counts values; each control
record carries exactly the kind and domain the classifiers assign to its id;
and the entry comes from a parsed form whose name, resource file, action
count and original control order it preserves. -/
theorem build_form_schema_consistent (forms : List FormSection) (e : FormSchemaEntry)
    (h : e ∈ build_form_schema forms) :
    e.control_count = e.controls.length ∧
    e.control_count = sumVals e.kind_counts ∧
    e.control_count = sumVals e.domain_counts ∧
    (∀ r ∈ e.controls,
      r.kind = infer_control_kind r.id ∧ r.domain = infer_control_domain r.id) ∧
    ∃ f, f ∈ forms ∧ e.form_name = f.form_name ∧ e.resource_file = f.resource_file ∧
      e.action_count = f.actions.length ∧ e.controls.map ControlRecord.id = f.controls := by
  rw [build_form_schema] at h
  rcases List.mem_map.mp h with ⟨f, hf, rfl⟩
  have hfmem : f ∈ forms := List.mem_of_mem_filter ((sortLe_perm _ _).mem_iff.mp hf)
  have hacc := schemaFold_char f.controls [] [] []
  have hcontrols : (entryFor f).controls = f.controls.map (fun cid =>
      { id := cid, kind := infer_control_kind cid, domain := infer_control_domain cid }) := by
    simp only [entryFor, hacc, List.nil_append]
  have hkc : (entryFor f).kind_counts =
      sortPairs ((f.controls.map infer_control_kind).foldl dincr []) := by
    simp only [entryFor, hacc]
  have hdc : (entryFor f).domain_counts =
      sortPairs ((f.controls.map infer_control_domain).foldl dincr []) := by
    simp only [entryFor, hacc]
  refine ⟨?_, ?_, ?_, ?_, f, hfmem, rfl, rfl, rfl, ?_⟩
  · rw [hcontrols, List.length_map]
    rfl
  · rw [hkc, sumVals_sortPairs, sumVals_foldl_dincr, List.length_map]
    show f.controls.length = sumVals [] + f.controls.length
    simp [sumVals]
  · rw [hdc, sumVals_sortPairs, sumVals_foldl_dincr, List.length_map]
    show f.controls.length = sumVals [] + f.controls.length
    simp [sumVals]
  · intro r hr
    rw [hcontrols] at hr
    rcases List.mem_map.mp hr with ⟨cid, _, rfl⟩
    exact ⟨rfl, rfl⟩
  · rw [hcontrols, List.map_map]
    have hid : ∀ a ∈ f.controls, (ControlRecord.id ∘ fun cid =>
        ({ id := cid, kind := infer_control_kind cid,
           domain := infer_control_domain cid } : ControlRecord)) a = id a :=
      fun a _ => rfl
    rw [List.map_congr_left hid, List.map_id]

/-- Concrete selected form exercising the schema theorem. -/
def formEx10 : FormSection :=
  { resource_file := "r2.rc".toList, form_name := "TfrmOptions".toList,
    actions := ["actA".toList],
    controls := ["chkStitchHole".toList, "edZoom".toList] }

/-- The schema entry built from formEx10. -/
def entryEx : FormSchemaEntry := entryFor formEx10

/-- C10 witness: the consistency law applied at the concrete form. -/
theorem build_form_schema_consistent_witness :
    entryEx.control_count = entryEx.controls.length ∧
    entryEx.control_count = sumVals entryEx.kind_counts ∧
    entryEx.control_count = sumVals entryEx.domain_counts ∧
    (∀ r ∈ entryEx.controls,
      r.kind = infer_control_kind r.id ∧ r.domain = infer_control_domain r.id) ∧
    ∃ f, f ∈ [formEx10] ∧ entryEx.form_name = f.form_name ∧
      entryEx.resource_file = f.resource_file ∧ entryEx.action_count = f.actions.length ∧
      entryEx.controls.map ControlRecord.id = f.controls :=
  build_form_schema_consistent [formEx10] entryEx (by decide)

example : canonicalize_action "actAlignLeftExecute".toList = "actAlignLeft".toList := by decide

example : canonicalize_action " actLinePalletEdit ".toList = "actLinePaletteEdit".toList := by decide

example : classify_cluster "actShowHideGrid".toList = "ViewportDisplay".toList := by decide

example : infer_control_kind "chkStitchAutoSave".toList = "checkbox".toList := by decide

example : infer_control_domain "chkStitchAutoSave".toList = "stitching".toList := by decide

end LeatherCad
